import Mathlib

/-!
# Collision queries, planning parameters and the BFS heuristic of smpl

A shallow embedding of

* `sbpl_collision_checking/src/collision_operations.h`
  (`CheckSphereCollision` in its two forms, `SphereCollisionDistance`),
* `sbpl_arm_planner/src/planning_params.cpp` (`PlanningParams::init`),
* the heuristic table built by `BfsHeuristic::setGoal` and the dirty check
  `AttachedBodiesCollisionState::attachedBodyTransformDirty`, of which only
  the declarations are among the sources.

Conventions.  A C++ `double` is an exact rational (`ℚ`): sums and differences
are not rounded and there is no NaN or infinity.  A C++ `bool` function with a
`double&` output parameter returns the pair of the boolean and the value
written.  A member function that mutates its object returns the new object.
-/

namespace sbpl
namespace collision

/-! ## Data read by the collision queries -/

/-- The position of a sphere, `Eigen::Vector3d pos`, read through `x()`, `y()`
and `z()`. -/
structure Vector3d where
  x : ℚ
  y : ℚ
  z : ℚ
  deriving DecidableEq

/-- The sphere descriptor behind `CollisionSphereState::model`; of its fields
the queries read `radius`. -/
structure CollisionSphereModel where
  radius : ℚ
  deriving DecidableEq

/-- The cached state of one sphere: its model and its world position. -/
structure CollisionSphereState where
  model : CollisionSphereModel
  pos : Vector3d
  deriving DecidableEq

/-- Modelled from the spec: `OccupancyGrid` (`occupancy_grid.h` is not among the
sources).  The spec gives its contract: `distanceAt(x,y,z)` is the clearance of
the point, and the maximum value when the point is out of bounds;
`halfResolution()` is half the voxel size.  `inBounds` is the mapped volume,
`cellDistance` the clearance stored for a point of it, `maxDistance` the value
reported outside. -/
structure OccupancyGrid where
  inBounds : ℚ → ℚ → ℚ → Bool
  cellDistance : ℚ → ℚ → ℚ → ℚ
  maxDistance : ℚ
  halfResolution : ℚ

/-- The clearance at a point: `grid.getDistanceFromPoint(x, y, z)`. -/
def OccupancyGrid.getDistanceFromPoint (grid : OccupancyGrid) (x y z : ℚ) : ℚ :=
  if grid.inBounds x y z then grid.cellDistance x y z else grid.maxDistance

/-- Half the voxel size: `grid.getHalfResolution()`. -/
def OccupancyGrid.getHalfResolution (grid : OccupancyGrid) : ℚ :=
  grid.halfResolution

/-- The two members of `RobotCollisionState` (`robot_collision_state.h` is not
among the sources) that the stateful query calls, over a state type `σ` and a
sphere index type `ι`: `updateSphereState` returns its boolean and the updated
state, `sphereState` reads the cached state of one sphere. -/
structure RobotCollisionStateOps (σ ι : Type) where
  updateSphereState : σ → ι → Bool × σ
  sphereState : σ → ι → CollisionSphereState

/-! ## collision_operations.h -/

/-- The pure form (lines 81-94): `dist` is the clearance at the sphere, the
result is `dist > effective_radius`.  Returns `(result, dist)`. -/
def CheckSphereCollision (grid : OccupancyGrid) (s : CollisionSphereState)
    (padding : ℚ) : Bool × ℚ :=
  let dist := grid.getDistanceFromPoint s.pos.x s.pos.y s.pos.z
  let effective_radius := s.model.radius + grid.getHalfResolution + padding
  (decide (dist > effective_radius), dist)

/-- The stateful form (lines 59-79): `state.updateSphereState(sidx)`, then the
same query on `state.sphereState(sidx)`.  Returns `(result, dist, state)`. -/
def CheckSphereCollisionState {σ ι : Type} (ops : RobotCollisionStateOps σ ι)
    (grid : OccupancyGrid) (state : σ) (padding : ℚ) (sidx : ι) : Bool × ℚ × σ :=
  let state1 := (ops.updateSphereState state sidx).2
  let ss := ops.sphereState state1 sidx
  let dist := grid.getDistanceFromPoint ss.pos.x ss.pos.y ss.pos.z
  let effective_radius := ss.model.radius + grid.getHalfResolution + padding
  (decide (dist > effective_radius), dist, state1)

/-- The signed clearance (lines 96-106): `dist - effective_radius`. -/
def SphereCollisionDistance (grid : OccupancyGrid) (s : CollisionSphereState)
    (padding : ℚ) : ℚ :=
  let dist := grid.getDistanceFromPoint s.pos.x s.pos.y s.pos.z
  let effective_radius := s.model.radius + grid.getHalfResolution + padding
  dist - effective_radius

end collision
end sbpl

namespace sbpl
namespace collision

/-- A grid that maps the unit cube, with clearance 1/10 inside, 2/5 as its
maximum distance and voxels of size 1/50. -/
def unitCubeGrid : OccupancyGrid :=
  ⟨fun x y z => decide (0 ≤ x ∧ x ≤ 1 ∧ 0 ≤ y ∧ y ≤ 1 ∧ 0 ≤ z ∧ z ≤ 1),
    fun _ _ _ => 1 / 10, 2 / 5, 1 / 100⟩

/-- A sphere of radius 1/20 centred at (1/2, 1/2, 1/2), inside the unit cube. -/
def innerSphere : CollisionSphereState :=
  ⟨⟨1 / 20⟩, ⟨1 / 2, 1 / 2, 1 / 2⟩⟩

/-- Modelled from the spec: what the attached bodies read of the referenced
`RobotCollisionState` (`robot_collision_state.h` is not among the sources): the
dirty bit of the transform of each link. -/
structure RobotCollisionState where
  dirty_link_transforms : List Bool

/-- Whether the transform of link `lidx` is dirty; `none` for an index that is
not a link. -/
def RobotCollisionState.linkTransformDirty (state : RobotCollisionState) (lidx : Nat) :
    Option Bool :=
  state.dirty_link_transforms[lidx]?

/-- Modelled from the spec: one attached body, its parent link (the "parent
link name" of the descriptor, as a link index) and the local dirty bit of its
cached transform. -/
structure AttachedBodyState where
  parent_link : Nat
  transform_dirty : Bool

/-- Modelled from the spec: `AttachedBodiesCollisionState`
(`AttachedBodiesCollisionStateImpl` is not among the sources), one entry per
attached body.  The robot state it refers to is not owned: it is an argument
of the check. -/
structure AttachedBodiesCollisionState where
  bodies : List AttachedBodyState

/-- Modelled from the spec: `attachedBodyTransformDirty(abidx)`
(its definition is not among the sources).  "Every dirty check for an attached
body first asks the referenced RobotCollisionState whether the parent link's
transform is dirty; if so, the attached body's own cached transform is
considered dirty regardless of its local bit"; otherwise the local bit
answers.  `none` for an index that is not an attached body or whose parent is
not a link. -/
def AttachedBodiesCollisionState.attachedBodyTransformDirty
    (abs : AttachedBodiesCollisionState) (state : RobotCollisionState) (abidx : Nat) :
    Option Bool :=
  match abs.bodies[abidx]? with
  | none => none
  | some ab =>
    match state.linkTransformDirty ab.parent_link with
    | none => none
    | some parent_dirty => if parent_dirty then some true else some ab.transform_dirty

end collision
end sbpl

namespace sbpl
namespace manip

/-! ## planning_params.cpp

A `std::stringstream` is the list of characters not yet read together with
its `eofbit` and `failbit`.  The value of a parameter is a string, the type
`init` converts it to.  Of the fields of `PlanningParams` the embedding keeps the
four that `init` computes from the planning joints and the discretization; the
fields loaded one by one with `nh.param` (`epsilon`, `planner_name`, ...) take no
part in them nor in the value returned. -/

/-- The whitespace that `operator>>` skips and stops at (`std::isspace` in the
classic locale): space, `\t`, `\n`, `\v`, `\f`, `\r`. -/
def isspace (c : Char) : Bool :=
  c = ' ' || c = '\t' || c = '\n' || c = '\x0b' || c = '\x0c' || c = '\r'

/-- A string stream being read. -/
structure stringstream where
  rest : List Char
  eofbit : Bool
  failbit : Bool
  deriving DecidableEq

/-- The stream `std::stringstream(str)`. -/
def stringstream.ofString (str : String) : stringstream :=
  ⟨str.data, false, false⟩

/-- The flag `good()`: no state bit is set. -/
def stringstream.good (ss : stringstream) : Bool :=
  !ss.eofbit && !ss.failbit

/-- The flag `eof()`. -/
def stringstream.eof (ss : stringstream) : Bool :=
  ss.eofbit

/-- The flag `fail()`, whose negation is the stream used as a condition. -/
def stringstream.fail (ss : stringstream) : Bool :=
  ss.failbit

/-- The extraction `ss >> word` of a `std::string`.  On a stream that is not
good the sentry sets `failbit` and `word` keeps its value.  Otherwise leading
whitespace is skipped; when that reaches the end, `eofbit` and `failbit` are
set and `word` keeps its value; otherwise `word` is the run of characters up
to the next whitespace or the end, and reaching the end sets `eofbit`. -/
def stringstream.extract (ss : stringstream) (word : String) : String × stringstream :=
  if ss.good then
    match ss.rest.dropWhile isspace with
    | [] => (word, ⟨[], true, true⟩)
    | c :: cs =>
      let tok := (c :: cs).takeWhile (fun a => !isspace a)
      let rest := (c :: cs).dropWhile (fun a => !isspace a)
      (String.mk tok, ⟨rest, rest.isEmpty, false⟩)
  else (word, ⟨ss.rest, ss.eofbit, true⟩)

/-- The number of turns a loop of extractions can still make on a stream: none
once a state bit is set, else at most one per character left and a last one
that fails. -/
def stringstream.turns (ss : stringstream) : Nat :=
  if ss.good then ss.rest.length + 1 else 0

/-- The double constant `M_PI`, the double nearest to pi. -/
def M_PI : ℚ := 884279719003555 / 281474976710656

/-- The fields of `PlanningParams` that `init` computes from the planning
joints and the discretization.  `num_joints` is a count, kept as a natural
number; `coord_vals` holds integers (printed with `%d`), `coord_delta`
doubles. -/
structure PlanningParams where
  num_joints : Nat
  planning_joints : List String
  coord_vals : List Int
  coord_delta : List ℚ
  deriving DecidableEq

/-- The constructor (lines 65-70): `num_joints(0)` and three empty vectors. -/
def PlanningParams.new : PlanningParams :=
  ⟨0, [], [], []⟩

/-- The parameters `init` reads for the joints and the discretization:
`planning/planning_joints`, a string, and `planning/discretization`, `none`
when `nh.hasParam` is false. -/
structure ParamStore where
  planning_joints : String
  discretization : Option String

/-- The loop of lines 133-140 over `joint_name_stream`: while the stream is
good and not at its end, extract a fresh `jname` and push it back unless it is
empty.  Every turn reads a character or sets a state bit, so `fuel` greater
than the number of characters left lets the loop run to its end. -/
def readJointNames : Nat → stringstream → List String → List String
  | 0, _, planning_joints => planning_joints
  | fuel + 1, joint_name_stream, planning_joints =>
    if joint_name_stream.good && !joint_name_stream.eof then
      let r := joint_name_stream.extract ""
      if r.1.length = 0 then readJointNames fuel r.2 planning_joints
      else readJointNames fuel r.2 (planning_joints ++ [r.1])
    else planning_joints

/-- The loop of lines 148-150: `while (ss >> p) coord_vals.push_back(atof(p))`.
The parameter `atof` is the value of `atof(p.c_str())` as an element of
`coord_vals`. -/
def readDiscretization (atof : String → Int) :
    Nat → stringstream → String → List Int → List Int
  | 0, _, _, coord_vals => coord_vals
  | fuel + 1, ss, p, coord_vals =>
    let r := ss.extract p
    if r.2.fail then coord_vals
    else readDiscretization atof fuel r.2 r.1 (coord_vals ++ [atof r.1])

/-- The call `coord_delta.resize(n, 0)`: cut to `n` entries, or filled up to `n`
entries with `0`. -/
def resize (coord_delta : List ℚ) (n : Nat) : List ℚ :=
  (coord_delta ++ List.replicate (n - coord_delta.length) 0).take n

/-- The loop of lines 153-155, `k` turns from index `i` on:
`coord_delta[i] = (2.0 * M_PI) / coord_vals[i]`.  An index outside one of the
two vectors is undefined behaviour: `none`. -/
def fillCoordDelta (coord_vals : List Int) : Nat → Nat → List ℚ → Option (List ℚ)
  | 0, _, coord_delta => some coord_delta
  | k + 1, i, coord_delta =>
    match coord_vals[i]? with
    | none => none
    | some v =>
      if i < coord_delta.length then
        fillCoordDelta coord_vals k (i + 1) (coord_delta.set i ((2 * M_PI) / (v : ℚ)))
      else none

/-- The value of a run of decimal digits. -/
def digitsValue (cs : List Char) : Nat :=
  (cs.takeWhile Char.isDigit).foldl (fun n c => 10 * n + (c.toNat - '0'.toNat)) 0

/-- An instance of the parameter `atof` of `readDiscretization`: the value
stored for a token that is a decimal numeral with an optional sign (what
follows the leading digits does not count). -/
def atofDecimal (p : String) : Int :=
  match p.data with
  | '-' :: cs => -(digitsValue cs : Int)
  | '+' :: cs => (digitsValue cs : Int)
  | cs => (digitsValue cs : Int)

/-- The non-empty pieces of a list of characters cut at every whitespace
character: its maximal runs without whitespace. -/
def tokenRuns (l : List Char) : List (List Char) :=
  (l.splitOnP isspace).filter (fun t => !t.isEmpty)

/-- The maximal whitespace-free tokens of a string in their order, as the
claim on the planning joints words them: the string is cut at every
whitespace character and the empty pieces are dropped. -/
def whitespaceTokens (str : String) : List String :=
  (tokenRuns str.data).map String.mk

/-- The planning joints after lines 128-140 of `init`. -/
def initPlanningJoints (params : PlanningParams) (store : ParamStore) : List String :=
  readJointNames (store.planning_joints.length + 1)
    (stringstream.ofString store.planning_joints) params.planning_joints

/-- The vector `coord_vals` after lines 146-150 of `init`, for the
discretization string `d`. -/
def initCoordVals (atof : String → Int) (params : PlanningParams) (d : String) : List Int :=
  readDiscretization atof (d.length + 1) (stringstream.ofString d) "" params.coord_vals

/-- The function `PlanningParams::init` (lines 107-163) on the fields kept:
the value returned and the object after the call, or `none` when the loop of
lines 153-155 indexes a vector out of bounds. -/
def PlanningParams.init (atof : String → Int) (params : PlanningParams)
    (store : ParamStore) : Option (Bool × PlanningParams) :=
  let planning_joints := initPlanningJoints params store
  let num_joints := planning_joints.length
  match store.discretization with
  | some d =>
    let coord_vals := initCoordVals atof params d
    let coord_delta := resize params.coord_delta coord_vals.length
    match fillCoordDelta coord_vals num_joints 0 coord_delta with
    | some coord_delta1 => some (true, ⟨num_joints, planning_joints, coord_vals, coord_delta1⟩)
    | none => none
  | none => some (false, ⟨num_joints, planning_joints, params.coord_vals, params.coord_delta⟩)

end manip
end sbpl

namespace sbpl_arm_planner

/-! ## The table of BfsHeuristic

Only the declaration of `BfsHeuristic` is among the sources (`bfs_heuristic.h`);
its table is modelled from section 4.4 of the specification. -/

/-- A discretized cell `(x, y, z)`. -/
abbrev Cell := Int × Int × Int

/-- The heuristic table: the cost-to-goal of a cell, `none` for the sentinel
"unreachable". -/
abbrev Table := Cell → Option Nat

/-- Modelled from the spec: the obstacle/distance grid the heuristic reads
(the field behind `m_grid`; its class is not among the sources), "a 3D array
of clearance distances": its three dimensions and the clearance of each
cell. -/
structure DistanceGrid where
  dimX : Nat
  dimY : Nat
  dimZ : Nat
  clearance : Int → Int → Int → ℚ

/-- The cells of the array. -/
def DistanceGrid.inBounds (g : DistanceGrid) (c : Cell) : Bool :=
  decide (0 ≤ c.1) && decide (c.1 < g.dimX) && decide (0 ≤ c.2.1) && decide (c.2.1 < g.dimY)
    && decide (0 ≤ c.2.2) && decide (c.2.2 < g.dimZ)

/-- Modelled from the spec: `BfsHeuristic` (`bfs_heuristic.cpp` and the class
`BFS_3D` are not among the sources).  "Construction binds to an environment, a
SpatialField, and a clearance radius": `m_radius` and `m_grid` as declared in
the header, and the "fixed neighbor connectivity" of the flood fill as the list
of the offsets of the neighbours of a cell. -/
structure BfsHeuristic where
  m_radius : ℚ
  m_grid : DistanceGrid
  connectivity : List Cell

/-- Modelled from the spec: the binarization done by `setGoal`, "a cell is
occupied iff its clearance is less than the bound clearance radius". -/
def BfsHeuristic.occupied (h : BfsHeuristic) (c : Cell) : Bool :=
  decide (h.m_grid.clearance c.1 c.2.1 c.2.2 < h.m_radius)

/-- A free cell: a cell of the field that is not occupied. -/
def BfsHeuristic.free (h : BfsHeuristic) (c : Cell) : Bool :=
  h.m_grid.inBounds c && !h.occupied c

/-- The neighbours of a cell under the connectivity. -/
def BfsHeuristic.neighbors (h : BfsHeuristic) (c : Cell) : List Cell :=
  h.connectivity.map (fun o => (c.1 + o.1, c.2.1 + o.2.1, c.2.2 + o.2.2))

/-- Two cells are adjacent when each is a neighbour of the other.  For a
connectivity that holds the opposite of each of its offsets (the 6-, 18- and
26-cell ones) that is: one is a neighbour of the other. -/
def BfsHeuristic.adjacent (h : BfsHeuristic) (a b : Cell) : Prop :=
  b ∈ h.neighbors a ∧ a ∈ h.neighbors b

/-- The next frontier of the flood fill: the free cells without a value yet
that are neighbours of a cell of the frontier. -/
def BfsHeuristic.nextFrontier (h : BfsHeuristic) (table : Table) (frontier : List Cell) :
    List Cell :=
  ((frontier.flatMap h.neighbors).filter (fun c => h.free c && (table c).isNone)).dedup

/-- One breadth-first expansion at unit step cost: the cells of the next
frontier get the value `d + 1`. -/
def BfsHeuristic.expand (h : BfsHeuristic) (table : Table) (frontier : List Cell) (d : Nat) :
    Table :=
  fun c => if c ∈ h.nextFrontier table frontier then some (d + 1) else table c

/-- Modelled from the spec: the "multi-directional flood fill (breadth-first
expansion using a fixed neighbor connectivity, uniform unit step cost)":
expansions from the frontier of the cells of value `d` until a frontier is
empty; `fuel` bounds their number. -/
def BfsHeuristic.floodFill (h : BfsHeuristic) : Nat → Table → List Cell → Nat → Table
  | 0, table, _, _ => table
  | fuel + 1, table, frontier, d =>
    if frontier.isEmpty then table
    else h.floodFill fuel (h.expand table frontier d) (h.nextFrontier table frontier) (d + 1)

/-- The table before the flood fill: every cell "unreachable". -/
def unreachableTable : Table :=
  fun _ => none

/-- Modelled from the spec: the table after `BfsHeuristic::setGoal(x, y, z)`
(`bfs_heuristic.cpp` is not among the sources): the flood fill "seeded at the
goal cell outward over the free cells", the goal with value `0`; "cells never
reached (blocked by obstacles or outside the field) get a sentinel".  The fill
runs over the free cells, so a goal that is not free seeds nothing.  A
frontier holds a cell that none before held, so there are at most as many
expansions as the field has cells. -/
def BfsHeuristic.setGoal (h : BfsHeuristic) (x y z : Int) : Table :=
  if h.free (x, y, z) then
    h.floodFill (h.m_grid.dimX * h.m_grid.dimY * h.m_grid.dimZ)
      (fun c => if c = (x, y, z) then some 0 else none) [(x, y, z)] 0
  else unreachableTable

/-- The cells of the field, as a finite set. -/
def DistanceGrid.cells (g : DistanceGrid) : Finset Cell :=
  Finset.Ico (0 : Int) g.dimX ×ˢ Finset.Ico (0 : Int) g.dimY ×ˢ Finset.Ico (0 : Int) g.dimZ

/-- The invariant of the flood fill towards `goal`: `frontier` holds the cells
of value `d`, no value exceeds `d`, only free cells have a value, and the free
neighbours of a cell of value below `d` have a value at most one greater. -/
structure BfsHeuristic.FillInv (h : BfsHeuristic) (goal : Cell) (table : Table)
    (frontier : List Cell) (d : Nat) : Prop where
  goal_zero : table goal = some 0
  le_depth : ∀ c k, table c = some k → k ≤ d
  frontier_complete : ∀ c, table c = some d → c ∈ frontier
  frontier_sound : ∀ c, c ∈ frontier → table c = some d
  free_of_value : ∀ c k, table c = some k → h.free c = true
  closed_below : ∀ a b k, table a = some k → k < d → b ∈ h.neighbors a → h.free b = true →
    ∃ j, table b = some j ∧ j ≤ k + 1
  levels : frontier ≠ [] → ∀ i, i ≤ d → ∃ c, table c = some i

/-- The six offsets along the axes. -/
def connectivity6 : List Cell :=
  [(1, 0, 0), (-1, 0, 0), (0, 1, 0), (0, -1, 0), (0, 0, 1), (0, 0, -1)]

/-- A field of 3 x 2 x 1 cells with clearance 0 in the cell (1, 0, 0) and
clearance 2 elsewhere, read with radius 1 and the six axis offsets. -/
def exampleHeuristic : BfsHeuristic :=
  ⟨1, ⟨3, 2, 1, fun x y _ => if x = 1 ∧ y = 0 then 0 else 2⟩, connectivity6⟩

end sbpl_arm_planner

/-! # Theorems -/

namespace sbpl
namespace collision

/-- C2: the stateful CheckSphereCollision updates sphere sidx first and then
returns the boolean and the dist of the pure form applied to the sphere state
read after that update; in both forms dist is the raw clearance at the
position of the sphere, whatever the boolean. -/
theorem CheckSphereCollisionState_eq_pure {σ ι : Type} (ops : RobotCollisionStateOps σ ι)
    (grid : OccupancyGrid) (state : σ) (padding : ℚ) (sidx : ι) :
    (CheckSphereCollisionState ops grid state padding sidx).2.2 =
        (ops.updateSphereState state sidx).2 ∧
      ((CheckSphereCollisionState ops grid state padding sidx).1,
          (CheckSphereCollisionState ops grid state padding sidx).2.1) =
        CheckSphereCollision grid
          (ops.sphereState (ops.updateSphereState state sidx).2 sidx) padding ∧
      (CheckSphereCollisionState ops grid state padding sidx).2.1 =
        grid.getDistanceFromPoint
          (ops.sphereState (ops.updateSphereState state sidx).2 sidx).pos.x
          (ops.sphereState (ops.updateSphereState state sidx).2 sidx).pos.y
          (ops.sphereState (ops.updateSphereState state sidx).2 sidx).pos.z ∧
      ∀ s : CollisionSphereState, (CheckSphereCollision grid s padding).2 =
        grid.getDistanceFromPoint s.pos.x s.pos.y s.pos.z := by
  refine ⟨rfl, rfl, rfl, fun _ => rfl⟩

/-- C4: the pure CheckSphereCollision returns true exactly when
SphereCollisionDistance is strictly positive; a signed clearance that is
negative or zero goes with a failing check. -/
theorem CheckSphereCollision_iff_distance_pos (grid : OccupancyGrid)
    (s : CollisionSphereState) (padding : ℚ) :
    ((CheckSphereCollision grid s padding).1 = true ↔
        0 < SphereCollisionDistance grid s padding) ∧
      (SphereCollisionDistance grid s padding ≤ 0 ↔
        (CheckSphereCollision grid s padding).1 = false) := by
  have key : (CheckSphereCollision grid s padding).1 = true ↔
      0 < SphereCollisionDistance grid s padding := by
    simp [CheckSphereCollision, SphereCollisionDistance]
  refine ⟨key, ?_⟩
  rw [← not_lt, ← key]
  simp

end collision
end sbpl

namespace sbpl
namespace collision

/-- C10: attachedBodyTransformDirty(abidx) is true whenever the transform of
the parent link of the body is dirty in the robot state, whatever the local
dirty bit of the attached body. -/
theorem attachedBodyTransformDirty_of_parent_dirty (abs : AttachedBodiesCollisionState)
    (state : RobotCollisionState) (abidx : Nat) (ab : AttachedBodyState)
    (hab : abs.bodies[abidx]? = some ab)
    (hparent : state.linkTransformDirty ab.parent_link = some true) :
    abs.attachedBodyTransformDirty state abidx = some true := by
  simp [AttachedBodiesCollisionState.attachedBodyTransformDirty, hab, hparent]

/-- Witness of C10: an attached body on link 1 with a clean local bit is
dirty when the transform of link 1 is. -/
theorem attachedBodyTransformDirty_of_parent_dirty_witness :
    (AttachedBodiesCollisionState.mk [⟨1, false⟩]).attachedBodyTransformDirty
      ⟨[false, true]⟩ 0 = some true :=
  attachedBodyTransformDirty_of_parent_dirty ⟨[⟨1, false⟩]⟩ ⟨[false, true]⟩ 0 ⟨1, false⟩ rfl rfl

end collision
end sbpl

namespace sbpl
namespace manip

/-! ## PlanningParams::init -/

theorem dropWhile_length_le (p : Char → Bool) (l : List Char) :
    (l.dropWhile p).length ≤ l.length := by
  induction l with
  | nil => simp
  | cons a l ih =>
    simp only [List.dropWhile_cons]
    split
    · simp; omega
    · simp

/-- An extraction leaves fewer turns than there were. -/
theorem stringstream.extract_turns (ss : stringstream) (word : String)
    (hgood : ss.good = true) : (ss.extract word).2.turns < ss.turns := by
  unfold stringstream.extract
  rw [if_pos hgood]
  have h1 := dropWhile_length_le isspace ss.rest
  cases hr : ss.rest.dropWhile isspace with
  | nil =>
    have h0 : (stringstream.mk [] true true).turns = 0 := rfl
    have h2 : ss.turns = ss.rest.length + 1 := by simp only [stringstream.turns, hgood, if_true]
    rw [h0, h2]
    omega
  | cons c cs =>
    rw [hr] at h1
    have hc : isspace c = false := by
      have := List.head_dropWhile_not isspace ss.rest (by rw [hr]; simp)
      simpa [hr] using this
    have h2 := dropWhile_length_le (fun a => !isspace a) cs
    simp only [stringstream.turns, hgood, if_true, List.dropWhile_cons, hc, Bool.not_false]
    simp only [List.length_cons] at h1
    split <;> omega

/-- The loop over the joint names has run to its end once the fuel covers the
turns of the stream: more fuel changes nothing. -/
theorem readJointNames_fuel (fuel : Nat) :
    ∀ (ss : stringstream) (planning_joints : List String), ss.turns ≤ fuel →
      readJointNames (fuel + 1) ss planning_joints = readJointNames fuel ss planning_joints := by
  induction fuel with
  | zero =>
    intro ss planning_joints h
    have hgood : ss.good = false := by
      by_contra hg
      simp [stringstream.turns, hg] at h
    simp [readJointNames, hgood]
  | succ fuel ih =>
    intro ss planning_joints h
    conv_lhs => unfold readJointNames
    conv_rhs => unfold readJointNames
    by_cases hcond : (ss.good && !ss.eof) = true
    · have hgood : ss.good = true := by
        simp only [Bool.and_eq_true] at hcond
        exact hcond.1
      have hlt := ss.extract_turns "" hgood
      have hle : (ss.extract "").2.turns ≤ fuel := by omega
      simp only [hcond, if_true]
      rw [ih _ _ hle, ih _ _ hle]
    · simp only [hcond]
      rfl

/-- The loop over the discretization has run to its end once the fuel covers
the turns of the stream: more fuel changes nothing. -/
theorem readDiscretization_fuel (atof : String → Int) (fuel : Nat) :
    ∀ (ss : stringstream) (p : String) (coord_vals : List Int), ss.turns ≤ fuel →
      readDiscretization atof (fuel + 1) ss p coord_vals =
        readDiscretization atof fuel ss p coord_vals := by
  induction fuel with
  | zero =>
    intro ss p coord_vals h
    have hgood : ss.good = false := by
      by_contra hg
      simp [stringstream.turns, hg] at h
    simp [readDiscretization, stringstream.extract, hgood, stringstream.fail]
  | succ fuel ih =>
    intro ss p coord_vals h
    conv_lhs => unfold readDiscretization
    conv_rhs => unfold readDiscretization
    by_cases hgood : ss.good = true
    · have hlt := ss.extract_turns p hgood
      have hle : (ss.extract p).2.turns ≤ fuel := by omega
      simp only []
      rw [ih _ _ _ hle]
    · have hfail : (ss.extract p).2.fail = true := by
        simp [stringstream.extract, hgood, stringstream.fail]
      simp only [hfail, if_true]

/-- The fuel that `init` gives the loop over the joint names covers the turns
of its stream. -/
theorem initPlanningJoints_fuel (params : PlanningParams) (store : ParamStore) (extra : Nat) :
    readJointNames (store.planning_joints.length + 1 + extra)
        (stringstream.ofString store.planning_joints) params.planning_joints =
      initPlanningJoints params store := by
  induction extra with
  | zero => rfl
  | succ extra ih =>
    rw [← ih, ← Nat.add_assoc]
    apply readJointNames_fuel
    have ht : (stringstream.ofString store.planning_joints).turns =
        store.planning_joints.length + 1 := rfl
    omega

/-- The fuel that `init` gives the loop over the discretization covers the
turns of its stream. -/
theorem initCoordVals_fuel (atof : String → Int) (params : PlanningParams) (d : String)
    (extra : Nat) :
    readDiscretization atof (d.length + 1 + extra) (stringstream.ofString d) ""
        params.coord_vals =
      initCoordVals atof params d := by
  induction extra with
  | zero => rfl
  | succ extra ih =>
    rw [← ih, ← Nat.add_assoc]
    apply readDiscretization_fuel
    have ht : (stringstream.ofString d).turns = d.length + 1 := rfl
    omega

theorem resize_length (coord_delta : List ℚ) (n : Nat) : (resize coord_delta n).length = n := by
  simp [resize]
  omega

/-- When the loop of lines 153-155 stays within bounds, either it made no turn
or both vectors hold at least `i + k` entries; the size of `coord_delta` is
kept. -/
theorem fillCoordDelta_some (coord_vals : List Int) (k : Nat) :
    ∀ (i : Nat) (coord_delta coord_delta1 : List ℚ),
      fillCoordDelta coord_vals k i coord_delta = some coord_delta1 →
      (k = 0 ∨ (i + k ≤ coord_vals.length ∧ i + k ≤ coord_delta.length)) ∧
        coord_delta1.length = coord_delta.length := by
  induction k with
  | zero =>
    intro i coord_delta coord_delta1 h
    simp [fillCoordDelta] at h
    exact ⟨Or.inl rfl, by rw [h]⟩
  | succ k ih =>
    intro i coord_delta coord_delta1 h
    unfold fillCoordDelta at h
    cases hv : coord_vals[i]? with
    | none => simp [hv] at h
    | some v =>
      simp only [hv] at h
      by_cases hi2 : i < coord_delta.length
      · rw [if_pos hi2] at h
        obtain ⟨hk, hlen⟩ := ih _ _ _ h
        have hi : i < coord_vals.length := by
          by_contra hge
          rw [List.getElem?_eq_none (by omega)] at hv
          cases hv
        refine ⟨Or.inr ?_, by simpa using hlen⟩
        rcases hk with hk | hk
        · subst hk; omega
        · simp at hk; omega
      · rw [if_neg hi2] at h
        cases h

/-- Whenever `init` returns true, `coord_vals` and `coord_delta` hold at least
`num_joints` entries each, `coord_delta` as many as `coord_vals`, and
`num_joints` is the number of planning joints. -/
theorem PlanningParams.init_true_bounds (atof : String → Int) (params params1 : PlanningParams)
    (store : ParamStore) (h : params.init atof store = some (true, params1)) :
    params1.num_joints = params1.planning_joints.length ∧
      params1.num_joints ≤ params1.coord_vals.length ∧
      params1.coord_delta.length = params1.coord_vals.length := by
  unfold PlanningParams.init at h
  cases hd : store.discretization with
  | none => simp [hd] at h
  | some d =>
    simp only [hd] at h
    cases hf : fillCoordDelta (initCoordVals atof params d)
        (initPlanningJoints params store).length 0
        (resize params.coord_delta (initCoordVals atof params d).length) with
    | none => simp [hf] at h
    | some cd =>
      simp only [hf, Option.some.injEq, Prod.mk.injEq, true_and] at h
      obtain ⟨hk, hlen⟩ := fillCoordDelta_some _ _ _ _ _ hf
      rw [resize_length] at hlen hk
      subst h
      refine ⟨rfl, ?_, hlen⟩
      rcases hk with hk | hk
      · simp only [hk]; omega
      · simpa using hk.1

/-- C7, at the failing input: three planning joints and a discretization of
two values.  The loop of lines 153-155 indexes both vectors at 2, out of
bounds, and init does not return false. -/
theorem PlanningParams.init_fewer_values_not_rejected :
    initPlanningJoints PlanningParams.new ⟨"shoulder elbow wrist", some "360 180"⟩ =
        ["shoulder", "elbow", "wrist"] ∧
      initCoordVals atofDecimal PlanningParams.new "360 180" = [360, 180] ∧
      PlanningParams.new.init atofDecimal ⟨"shoulder elbow wrist", some "360 180"⟩ = none ∧
      ∀ params1, PlanningParams.new.init atofDecimal ⟨"shoulder elbow wrist", some "360 180"⟩ ≠
        some (false, params1) := by
  refine ⟨by decide, by decide, by rfl, ?_⟩
  intro params1 h
  have hnone : PlanningParams.new.init atofDecimal
      ⟨"shoulder elbow wrist", some "360 180"⟩ = none := by rfl
  rw [hnone] at h
  cases h

end manip
end sbpl

namespace sbpl_arm_planner

/-! ## The flood fill of BfsHeuristic::setGoal -/

theorem BfsHeuristic.mem_nextFrontier (h : BfsHeuristic) (table : Table) (frontier : List Cell)
    (c : Cell) :
    c ∈ h.nextFrontier table frontier ↔
      (∃ a, a ∈ frontier ∧ c ∈ h.neighbors a) ∧ h.free c = true ∧ table c = none := by
  simp [BfsHeuristic.nextFrontier, List.mem_dedup, List.mem_filter, List.mem_flatMap]

theorem BfsHeuristic.expand_of_mem (h : BfsHeuristic) (table : Table) (frontier : List Cell)
    (d : Nat) (c : Cell) (hc : c ∈ h.nextFrontier table frontier) :
    h.expand table frontier d c = some (d + 1) := by
  simp [BfsHeuristic.expand, hc]

theorem BfsHeuristic.expand_of_not_mem (h : BfsHeuristic) (table : Table)
    (frontier : List Cell) (d : Nat) (c : Cell) (hc : c ∉ h.nextFrontier table frontier) :
    h.expand table frontier d c = table c := by
  simp [BfsHeuristic.expand, hc]

theorem BfsHeuristic.expand_of_value (h : BfsHeuristic) (table : Table)
    (frontier : List Cell) (d : Nat) (c : Cell) (k : Nat) (hc : table c = some k) :
    h.expand table frontier d c = some k := by
  rw [h.expand_of_not_mem table frontier d c, hc]
  intro hmem
  rw [h.mem_nextFrontier] at hmem
  rw [hmem.2.2] at hc
  cases hc

theorem BfsHeuristic.FillInv.init (h : BfsHeuristic) (goal : Cell)
    (hfree : h.free goal = true) :
    h.FillInv goal (fun c => if c = goal then some 0 else none) [goal] 0 := by
  refine ⟨by simp, ?_, ?_, ?_, ?_, ?_, ?_⟩
  · intro c k hk
    by_cases hc : c = goal <;> simp [hc] at hk
    omega
  · intro c hk
    by_cases hc : c = goal <;> simp [hc] at hk ⊢
  · intro c hc
    simp at hc
    simp [hc]
  · intro c k hk
    by_cases hc : c = goal <;> simp [hc] at hk
    rw [hc]; exact hfree
  · intro a b k _ hk
    omega
  · intro _ i hi
    exact ⟨goal, by simp; omega⟩

theorem BfsHeuristic.FillInv.step {h : BfsHeuristic} {goal : Cell} {table : Table}
    {frontier : List Cell} {d : Nat} (inv : h.FillInv goal table frontier d) :
    h.FillInv goal (h.expand table frontier d) (h.nextFrontier table frontier) (d + 1) := by
  refine ⟨h.expand_of_value table frontier d goal 0 inv.goal_zero, ?_, ?_, ?_, ?_, ?_, ?_⟩
  · intro c k hk
    by_cases hc : c ∈ h.nextFrontier table frontier
    · rw [h.expand_of_mem table frontier d c hc] at hk
      cases hk; exact le_rfl
    · rw [h.expand_of_not_mem table frontier d c hc] at hk
      exact Nat.le_succ_of_le (inv.le_depth c k hk)
  · intro c hk
    by_contra hc
    rw [h.expand_of_not_mem table frontier d c hc] at hk
    have := inv.le_depth c _ hk
    omega
  · intro c hc
    exact h.expand_of_mem table frontier d c hc
  · intro c k hk
    by_cases hc : c ∈ h.nextFrontier table frontier
    · exact ((h.mem_nextFrontier table frontier c).1 hc).2.1
    · rw [h.expand_of_not_mem table frontier d c hc] at hk
      exact inv.free_of_value c k hk
  · intro a b k ha hk hb hfree
    have hna : a ∉ h.nextFrontier table frontier := by
      intro hmem
      rw [h.expand_of_mem table frontier d a hmem] at ha
      cases ha
      omega
    rw [h.expand_of_not_mem table frontier d a hna] at ha
    rcases Nat.lt_succ_iff_lt_or_eq.1 hk with hlt | heq
    · obtain ⟨j, hj, hjk⟩ := inv.closed_below a b k ha hlt hb hfree
      exact ⟨j, h.expand_of_value table frontier d b j hj, hjk⟩
    · subst heq
      cases hv : table b with
      | none =>
        have hmem : b ∈ h.nextFrontier table frontier :=
          (h.mem_nextFrontier table frontier b).2
            ⟨⟨a, inv.frontier_complete a ha, hb⟩, hfree, hv⟩
        exact ⟨k + 1, h.expand_of_mem table frontier k b hmem, le_rfl⟩
      | some j =>
        exact ⟨j, h.expand_of_value table frontier k b j hv,
          Nat.le_succ_of_le (inv.le_depth b j hv)⟩
  · intro hne i hi
    obtain ⟨c, hc⟩ := List.exists_mem_of_ne_nil _ hne
    rcases Nat.lt_succ_iff_lt_or_eq.1 (Nat.lt_succ_of_le hi) with hlt | heq
    · obtain ⟨⟨a, ha, _⟩, _⟩ := (h.mem_nextFrontier table frontier c).1 hc
      obtain ⟨c1, hc1⟩ := inv.levels (List.ne_nil_of_mem ha) i (Nat.lt_succ_iff.1 hlt)
      exact ⟨c1, h.expand_of_value table frontier d c1 i hc1⟩
    · exact ⟨c, by rw [heq]; exact h.expand_of_mem table frontier d c hc⟩

theorem BfsHeuristic.FillInv.floodFill {h : BfsHeuristic} {goal : Cell} (fuel : Nat) :
    ∀ {table : Table} {frontier : List Cell} {d : Nat}, h.FillInv goal table frontier d →
      ∃ frontier1 d1, h.FillInv goal (h.floodFill fuel table frontier d) frontier1 d1 := by
  induction fuel with
  | zero =>
    intro table frontier d inv
    exact ⟨frontier, d, inv⟩
  | succ fuel ih =>
    intro table frontier d inv
    unfold BfsHeuristic.floodFill
    by_cases hf : frontier.isEmpty = true
    · rw [if_pos hf]
      exact ⟨frontier, d, inv⟩
    · rw [if_neg hf]
      exact ih inv.step

/-- In a table of the flood fill the value of a neighbour of a cell is at most
one greater than the value of the cell. -/
theorem BfsHeuristic.FillInv.neighbor_le {h : BfsHeuristic} {goal : Cell} {table : Table}
    {frontier : List Cell} {d : Nat} (inv : h.FillInv goal table frontier d) {a b : Cell}
    {i j : Nat} (ha : table a = some i) (hb : table b = some j) (hab : b ∈ h.neighbors a) :
    j ≤ i + 1 := by
  rcases Nat.lt_or_ge i d with hlt | hge
  · obtain ⟨j1, hj1, hle⟩ := inv.closed_below a b i ha hlt hab (inv.free_of_value b j hb)
    rw [hb] at hj1
    cases hj1
    exact hle
  · have := inv.le_depth b j hb
    omega

theorem DistanceGrid.card_cells (g : DistanceGrid) :
    g.cells.card = g.dimX * g.dimY * g.dimZ := by
  simp [DistanceGrid.cells, Finset.card_product, Nat.mul_assoc]

theorem DistanceGrid.mem_cells_of_inBounds (g : DistanceGrid) (c : Cell)
    (hc : g.inBounds c = true) : c ∈ g.cells := by
  obtain ⟨x, y, z⟩ := c
  simp [DistanceGrid.inBounds] at hc
  simp [DistanceGrid.cells, hc]

/-- While the frontier is not empty the depth is below the number of cells of
the field: each value up to the depth is held by a cell of the field. -/
theorem BfsHeuristic.FillInv.depth_lt {h : BfsHeuristic} {goal : Cell} {table : Table}
    {frontier : List Cell} {d : Nat} (inv : h.FillInv goal table frontier d)
    (hne : frontier ≠ []) : d + 1 ≤ h.m_grid.dimX * h.m_grid.dimY * h.m_grid.dimZ := by
  have hex : ∀ i : Fin (d + 1), ∃ c, table c = some i.1 :=
    fun i => inv.levels hne i.1 (Nat.lt_succ_iff.1 i.2)
  choose f hf using hex
  have hinj : Function.Injective f := by
    intro i j hij
    have h1 := hf i
    rw [hij, hf j] at h1
    exact Fin.ext (Option.some.inj h1).symm
  have hsub : Finset.univ.image f ⊆ h.m_grid.cells := by
    intro c hc
    obtain ⟨i, _, rfl⟩ := Finset.mem_image.1 hc
    have hfree := inv.free_of_value (f i) i.1 (hf i)
    simp only [BfsHeuristic.free, Bool.and_eq_true] at hfree
    exact h.m_grid.mem_cells_of_inBounds (f i) hfree.1
  have hcard := Finset.card_le_card hsub
  rw [Finset.card_image_of_injective _ hinj, Finset.card_univ, Fintype.card_fin,
    h.m_grid.card_cells] at hcard
  exact hcard

/-- With an empty frontier the table is closed: every free neighbour of a cell
with a value has a value, at most one greater. -/
theorem BfsHeuristic.FillInv.closed_of_nil {h : BfsHeuristic} {goal : Cell} {table : Table}
    {d : Nat} (inv : h.FillInv goal table [] d) (a b : Cell) (k : Nat)
    (ha : table a = some k) (hb : b ∈ h.neighbors a) (hfree : h.free b = true) :
    ∃ j, table b = some j ∧ j ≤ k + 1 := by
  have hle := inv.le_depth a k ha
  rcases Nat.lt_or_ge k d with hlt | hge
  · exact inv.closed_below a b k ha hlt hb hfree
  · have hkd : k = d := Nat.le_antisymm hle hge
    rw [hkd] at ha
    exact absurd (inv.frontier_complete a ha) (List.not_mem_nil a)

/-- The flood fill runs to its end when the fuel and the depth add up to the
number of cells of the field: its table is then closed. -/
theorem BfsHeuristic.FillInv.floodFill_closed {h : BfsHeuristic} {goal : Cell} (fuel : Nat) :
    ∀ {table : Table} {frontier : List Cell} {d : Nat}, h.FillInv goal table frontier d →
      h.m_grid.dimX * h.m_grid.dimY * h.m_grid.dimZ ≤ fuel + d →
      ∀ (a b : Cell) (k : Nat), h.floodFill fuel table frontier d a = some k →
        b ∈ h.neighbors a → h.free b = true →
        ∃ j, h.floodFill fuel table frontier d b = some j ∧ j ≤ k + 1 := by
  induction fuel with
  | zero =>
    intro table frontier d inv hfuel a b k ha hb hfree
    have hnil : frontier = [] := by
      by_contra hne
      have := inv.depth_lt hne
      omega
    subst hnil
    exact inv.closed_of_nil a b k ha hb hfree
  | succ fuel ih =>
    intro table frontier d inv hfuel a b k ha hb hfree
    unfold BfsHeuristic.floodFill at ha ⊢
    by_cases hf : frontier.isEmpty = true
    · rw [if_pos hf] at ha ⊢
      have hnil : frontier = [] := List.isEmpty_iff.1 hf
      subst hnil
      exact inv.closed_of_nil a b k ha hb hfree
    · rw [if_neg hf] at ha ⊢
      exact ih inv.step (by omega) a b k ha hb hfree

/-- The flood fill of `setGoal` is complete: on a free goal every free neighbour
of a reached cell is reached, with a value at most one greater. -/
theorem BfsHeuristic.setGoal_closed (h : BfsHeuristic) (x y z : Int)
    (hfree : h.free (x, y, z) = true) (a b : Cell) (k : Nat)
    (ha : h.setGoal x y z a = some k) (hb : b ∈ h.neighbors a) (hbfree : h.free b = true) :
    ∃ j, h.setGoal x y z b = some j ∧ j ≤ k + 1 := by
  unfold BfsHeuristic.setGoal at ha ⊢
  rw [if_pos hfree] at ha ⊢
  exact (BfsHeuristic.FillInv.init h (x, y, z) hfree).floodFill_closed _ (by omega) a b k ha
    hb hbfree

/-- The table of `setGoal` on a free goal satisfies the invariant of the flood
fill for some frontier and depth. -/
theorem BfsHeuristic.setGoal_inv (h : BfsHeuristic) (x y z : Int)
    (hfree : h.free (x, y, z) = true) :
    ∃ frontier d, h.FillInv (x, y, z) (h.setGoal x y z) frontier d := by
  unfold BfsHeuristic.setGoal
  rw [if_pos hfree]
  exact (BfsHeuristic.FillInv.init h (x, y, z) hfree).floodFill _

/-- C8: after setGoal on a free goal cell the table has h(goal) = 0, and two
adjacent cells that are both reached (reached cells are free) have values
that differ by at most 1. -/
theorem BfsHeuristic.setGoal_goal_zero_and_lipschitz (h : BfsHeuristic) (x y z : Int)
    (hfree : h.free (x, y, z) = true) :
    h.setGoal x y z (x, y, z) = some 0 ∧
      ∀ (a b : Cell) (i j : Nat), h.free a = true → h.free b = true → h.adjacent a b →
        h.setGoal x y z a = some i → h.setGoal x y z b = some j →
        |(i : Int) - (j : Int)| ≤ 1 := by
  obtain ⟨frontier, d, inv⟩ := h.setGoal_inv x y z hfree
  refine ⟨inv.goal_zero, ?_⟩
  intro a b i j _ _ hadj ha hb
  have h1 := inv.neighbor_le ha hb hadj.1
  have h2 := inv.neighbor_le hb ha hadj.2
  rw [abs_le]
  omega

/-- Witness of C8: in the 3 x 2 x 1 field with the cell (1, 0, 0) occupied and
the goal (0, 0, 0), the goal has value 0 and the adjacent cells (1, 1, 0) and
(2, 1, 0), of values 2 and 3, differ by 1. -/
theorem BfsHeuristic.setGoal_goal_zero_and_lipschitz_witness :
    exampleHeuristic.setGoal 0 0 0 (0, 0, 0) = some 0 ∧
      exampleHeuristic.setGoal 0 0 0 (1, 1, 0) = some 2 ∧
      exampleHeuristic.setGoal 0 0 0 (2, 1, 0) = some 3 ∧
      |((2 : Nat) : Int) - ((3 : Nat) : Int)| ≤ 1 :=
  ⟨(BfsHeuristic.setGoal_goal_zero_and_lipschitz exampleHeuristic 0 0 0 (by decide)).1,
    by decide, by decide,
    (BfsHeuristic.setGoal_goal_zero_and_lipschitz exampleHeuristic 0 0 0 (by decide)).2
      (1, 1, 0) (2, 1, 0) 2 3 (by decide) (by decide)
      ⟨by decide, by decide⟩ (by decide) (by decide)⟩

end sbpl_arm_planner

namespace sbpl
namespace collision

/-- C13: CheckSphereCollision and SphereCollisionDistance are monotone in the
padding: for p1 <= p2, a check that passes with padding p2 passes with
padding p1, the dist written is the same for both paddings, and the signed
clearance with p2 is at most the signed clearance with p1. -/
theorem CheckSphereCollision_padding_mono (grid : OccupancyGrid) (s : CollisionSphereState)
    (p1 p2 : ℚ) (hp : p1 ≤ p2) :
    ((CheckSphereCollision grid s p2).1 = true → (CheckSphereCollision grid s p1).1 = true) ∧
      (CheckSphereCollision grid s p1).2 = (CheckSphereCollision grid s p2).2 ∧
      SphereCollisionDistance grid s p2 ≤ SphereCollisionDistance grid s p1 := by
  refine ⟨?_, rfl, ?_⟩
  · simp only [CheckSphereCollision, decide_eq_true_eq]
    intro h
    linarith
  · simp only [SphereCollisionDistance]
    linarith

/-- Witness of C13: in the unit cube grid the sphere of radius 1/20 passes
with padding 1/50, hence with padding 0; dist is 1/10 for both, and the
signed clearance goes from 1/25 down to 1/50. -/
theorem CheckSphereCollision_padding_mono_witness :
    (CheckSphereCollision unitCubeGrid innerSphere (1 / 50)).1 = true ∧
      (CheckSphereCollision unitCubeGrid innerSphere 0).1 = true ∧
      (CheckSphereCollision unitCubeGrid innerSphere 0).2 =
        (CheckSphereCollision unitCubeGrid innerSphere (1 / 50)).2 ∧
      SphereCollisionDistance unitCubeGrid innerSphere (1 / 50) ≤
        SphereCollisionDistance unitCubeGrid innerSphere 0 :=
  have hmono := CheckSphereCollision_padding_mono unitCubeGrid innerSphere 0 (1 / 50)
    (by norm_num)
  have hpass : (CheckSphereCollision unitCubeGrid innerSphere (1 / 50)).1 = true := by
    simp [CheckSphereCollision, unitCubeGrid, innerSphere, OccupancyGrid.getDistanceFromPoint,
      OccupancyGrid.getHalfResolution]
    norm_num
  ⟨hpass, hmono.1 hpass, hmono.2.1, hmono.2.2⟩

end collision
end sbpl

namespace sbpl
namespace manip

end manip
end sbpl

namespace sbpl
namespace manip

/-- The pieces of a list cut at the whitespace: the run up to the first
whitespace character, then the pieces of what follows that character. -/
theorem splitOnP_isspace_eq (l : List Char) :
    l.splitOnP isspace =
      l.takeWhile (fun a => !isspace a) ::
        (match l.dropWhile (fun a => !isspace a) with
          | [] => []
          | _ :: tl => tl.splitOnP isspace) := by
  induction l with
  | nil => simp
  | cons x xs ih =>
    rw [List.splitOnP_cons]
    by_cases hx : isspace x = true
    · simp [hx]
    · have hx2 : isspace x = false := by simpa using hx
      rw [if_neg hx, ih]
      simp [hx2]

theorem tokenRuns_nil : tokenRuns [] = [] := by
  simp [tokenRuns]

theorem tokenRuns_cons_space (c : Char) (cs : List Char) (hc : isspace c = true) :
    tokenRuns (c :: cs) = tokenRuns cs := by
  simp [tokenRuns, List.splitOnP_cons, hc]

theorem tokenRuns_dropWhile (l : List Char) : tokenRuns (l.dropWhile isspace) = tokenRuns l := by
  induction l with
  | nil => rfl
  | cons c cs ih =>
    by_cases hc : isspace c = true
    · rw [List.dropWhile_cons_of_pos hc, ih, tokenRuns_cons_space c cs hc]
    · rw [List.dropWhile_cons_of_neg hc]

theorem tokenRuns_cons_nonspace (c : Char) (cs : List Char) (hc : isspace c = false) :
    tokenRuns (c :: cs) =
      (c :: cs).takeWhile (fun a => !isspace a) ::
        tokenRuns ((c :: cs).dropWhile (fun a => !isspace a)) := by
  have hsplit := splitOnP_isspace_eq (c :: cs)
  unfold tokenRuns
  rw [hsplit]
  have htake : (c :: cs).takeWhile (fun a => !isspace a) =
      c :: cs.takeWhile (fun a => !isspace a) := by
    simp [List.takeWhile_cons, hc]
  rw [List.filter_cons_of_pos (by rw [htake]; rfl)]
  congr 1
  cases hdrop : (c :: cs).dropWhile (fun a => !isspace a) with
  | nil => simp
  | cons s tl =>
    have hs : isspace s = true := by
      have := List.head_dropWhile_not (fun a => !isspace a) (c :: cs) (by rw [hdrop]; simp)
      simpa [hdrop] using this
    simp only []
    rw [List.splitOnP_cons, if_pos hs]
    simp

/-- The loop over the joint names, given fuel for the turns of its stream,
appends the tokens of what is left to read, in their order. -/
theorem readJointNames_eq_tokenRuns (fuel : Nat) :
    ∀ (ss : stringstream) (planning_joints : List String), ss.turns ≤ fuel →
      (ss.good = true ∨ ss.rest = []) →
      readJointNames fuel ss planning_joints =
        planning_joints ++ (tokenRuns ss.rest).map String.mk := by
  induction fuel with
  | zero =>
    intro ss planning_joints hturns hstate
    have hgood : ss.good = false := by
      by_contra hg
      simp [stringstream.turns, hg] at hturns
    rcases hstate with hg | hrest
    · rw [hg] at hgood
      cases hgood
    · simp [readJointNames, hrest, tokenRuns_nil]
  | succ fuel ih =>
    intro ss planning_joints hturns hstate
    unfold readJointNames
    by_cases hgood : ss.good = true
    · have heof : ss.eof = false := by
        cases he : ss.eofbit with
        | false => exact he
        | true => simp [stringstream.good, he] at hgood
      have hlt := ss.extract_turns "" hgood
      have hle : (ss.extract "").2.turns ≤ fuel := by omega
      simp only [hgood, heof, Bool.not_false, Bool.and_self, if_true]
      rw [← tokenRuns_dropWhile ss.rest]
      unfold stringstream.extract at hle ⊢
      rw [if_pos hgood] at hle ⊢
      cases hr : ss.rest.dropWhile isspace with
      | nil =>
        simp only [hr] at hle ⊢
        rw [if_pos (by rfl), ih _ _ hle (Or.inr rfl)]
      | cons c cs =>
        have hc : isspace c = false := by
          have := List.head_dropWhile_not isspace ss.rest (by rw [hr]; simp)
          simpa [hr] using this
        simp only [hr] at hle ⊢
        have hlen : (String.mk ((c :: cs).takeWhile (fun a => !isspace a))).length ≠ 0 := by
          simp [String.length, List.takeWhile_cons, hc]
        rw [if_neg hlen, ih _ _ hle ?_, tokenRuns_cons_nonspace c cs hc]
        · simp
        · cases hd : (c :: cs).dropWhile (fun a => !isspace a) with
          | nil => exact Or.inr rfl
          | cons s tl => exact Or.inl rfl
    · have hrest : ss.rest = [] := by
        rcases hstate with hg | hrest
        · exact absurd hg hgood
        · exact hrest
      have hg2 : ss.good = false := by simpa using hgood
      simp [hg2, hrest, tokenRuns_nil]

/-- The planning joints that `init` leaves are those it found followed by the
tokens of the parameter. -/
theorem initPlanningJoints_eq (params : PlanningParams) (store : ParamStore) :
    initPlanningJoints params store =
      params.planning_joints ++ whitespaceTokens store.planning_joints := by
  unfold initPlanningJoints whitespaceTokens
  exact readJointNames_eq_tokenRuns _ _ _ (le_of_eq rfl) (Or.inl rfl)

/-- A token holds no whitespace character. -/
theorem tokenRuns_no_space (n : Nat) :
    ∀ (l : List Char), l.length ≤ n → ∀ t, t ∈ tokenRuns l → ∀ c, c ∈ t → isspace c = false := by
  induction n with
  | zero =>
    intro l hl t ht
    have hnil : l = [] := List.length_eq_zero.1 (Nat.le_zero.1 hl)
    rw [hnil, tokenRuns_nil] at ht
    cases ht
  | succ n ih =>
    intro l hl t ht c hc
    cases l with
    | nil =>
      rw [tokenRuns_nil] at ht
      cases ht
    | cons x xs =>
      have hxs : xs.length ≤ n := by
        simp only [List.length_cons] at hl
        omega
      by_cases hx : isspace x = true
      · rw [tokenRuns_cons_space x xs hx] at ht
        exact ih xs hxs t ht c hc
      · have hx2 : isspace x = false := by simpa using hx
        rw [tokenRuns_cons_nonspace x xs hx2] at ht
        rcases List.mem_cons.1 ht with hhead | htail
        · rw [hhead] at hc
          have := List.mem_takeWhile_imp hc
          simpa using this
        · refine ih _ ?_ t htail c hc
          have hdrop : (x :: xs).dropWhile (fun a => !isspace a) =
              xs.dropWhile (fun a => !isspace a) := by
            simp [List.dropWhile_cons, hx2]
          rw [hdrop]
          exact Nat.le_trans (dropWhile_length_le _ xs) hxs

/-- C12: for a freshly constructed PlanningParams and every
planning/planning_joints string, the planning joints after init are exactly
the maximal whitespace-free tokens of the string in their order, none of them
empty, and num_joints is their number; right after construction num_joints
and planning_joints.size() are both 0. -/
theorem PlanningParams.init_planning_joints (atof : String → Int) (store : ParamStore) :
    initPlanningJoints PlanningParams.new store = whitespaceTokens store.planning_joints ∧
      (∀ t, t ∈ whitespaceTokens store.planning_joints →
        t ≠ "" ∧ ∀ c, c ∈ t.data → isspace c = false) ∧
      (∀ b params1, PlanningParams.new.init atof store = some (b, params1) →
        params1.planning_joints = whitespaceTokens store.planning_joints ∧
          params1.num_joints = params1.planning_joints.length) ∧
      (store.discretization = none →
        ∃ params1, PlanningParams.new.init atof store = some (false, params1) ∧
          params1.planning_joints = whitespaceTokens store.planning_joints ∧
          params1.num_joints = params1.planning_joints.length) ∧
      PlanningParams.new.num_joints = PlanningParams.new.planning_joints.length ∧
      PlanningParams.new.planning_joints.length = 0 := by
  have hjoints : initPlanningJoints PlanningParams.new store =
      whitespaceTokens store.planning_joints := by
    rw [initPlanningJoints_eq]
    rfl
  refine ⟨hjoints, ?_, ?_, ?_, rfl, rfl⟩
  · intro t ht
    obtain ⟨run, hrun, rfl⟩ := List.mem_map.1 ht
    refine ⟨?_, fun c hc => tokenRuns_no_space _ _ (le_refl _) run hrun c hc⟩
    intro hempty
    have hne : run ≠ [] := by
      have := (List.mem_filter.1 hrun).2
      intro hnil
      simp [hnil] at this
    exact hne (by simpa using congrArg String.data hempty)
  · intro b params1 hinit
    unfold PlanningParams.init at hinit
    cases hd : store.discretization with
    | none =>
      simp only [hd, Option.some.injEq, Prod.mk.injEq] at hinit
      rw [← hinit.2]
      exact ⟨hjoints, rfl⟩
    | some d =>
      simp only [hd] at hinit
      cases hf : fillCoordDelta (initCoordVals atof PlanningParams.new d)
          (initPlanningJoints PlanningParams.new store).length 0
          (resize PlanningParams.new.coord_delta
            (initCoordVals atof PlanningParams.new d).length) with
      | none => simp [hf] at hinit
      | some cd =>
        simp only [hf, Option.some.injEq, Prod.mk.injEq] at hinit
        rw [← hinit.2]
        exact ⟨hjoints, rfl⟩
  · intro hd
    refine ⟨⟨(initPlanningJoints PlanningParams.new store).length,
      initPlanningJoints PlanningParams.new store, PlanningParams.new.coord_vals,
      PlanningParams.new.coord_delta⟩, ?_, hjoints, rfl⟩
    simp [PlanningParams.init, hd]

/-- Witness of C12: leading, repeated and trailing whitespace of several kinds
add nothing: the three names are stored in their order and num_joints is 3. -/
theorem PlanningParams.init_planning_joints_witness :
    whitespaceTokens " j1  j2\tj3 \n" = ["j1", "j2", "j3"] ∧
      ∃ params1, PlanningParams.new.init atofDecimal ⟨" j1  j2\tj3 \n", none⟩ =
          some (false, params1) ∧
        params1.planning_joints = ["j1", "j2", "j3"] ∧ params1.num_joints = 3 := by
  have htok : whitespaceTokens " j1  j2\tj3 \n" = ["j1", "j2", "j3"] := by decide
  obtain ⟨params1, hinit, hjoints, hnum⟩ :=
    (PlanningParams.init_planning_joints atofDecimal ⟨" j1  j2\tj3 \n", none⟩).2.2.2.1 rfl
  refine ⟨htok, params1, hinit, ?_, ?_⟩
  · rw [hjoints]; exact htok
  · rw [hnum, hjoints]
    show (whitespaceTokens " j1  j2\tj3 \n").length = 3
    rw [htok]
    rfl

end manip
end sbpl
